import Mathlib

/-!
Verification of the r6 log-processing engine (`lib/r6LogsProcessor.py`).

The embedding models:
  * Python `str.strip` / `str.split(',')` / `int(str)` as used by
    `process_log_line`;
  * the two aggregator states (`defaultdict` maps, insertion-ordered) as
    association lists;
  * `process_log_line` for both processors, including the partial mutation
    that happens when `int(nb_kills)` raises after the `defaultdict`
    lookups already created zero-initialized entries;
  * `generate_report` for both processors (Python `sorted` is modelled by
    the stable `List.insertionSort`, float ratio arithmetic by `ℚ`);
  * the `process_logs` orchestration loop with its per-line try/except,
    collecting the error events it prints as `(file, 0-based index)` pairs.
-/

set_option autoImplicit false

namespace R6

/-! ## Python string primitives -/

/-- The ASCII whitespace characters removed by Python's `str.strip()`. -/
def pySpace (c : Char) : Bool :=
  c = ' ' || c = '\t' || c = '\n' || c = '\r' || c = '\x0b' || c = '\x0c'

/-- Python `str.strip()`: drop leading and trailing whitespace. -/
def pyStrip (s : String) : String :=
  ⟨((s.data.dropWhile pySpace).reverse.dropWhile pySpace).reverse⟩

/-- Parse the tail of a Python integer literal after its first digit:
`('_'? digit)*`, accumulating the value.  Mirrors CPython's rule that an
underscore must be followed by a digit. -/
def pyDigitsAux : List Char → Nat → Option Nat
  | [], acc => some acc
  | c :: rest, acc =>
    if c = '_' then
      match rest with
      | c' :: rest' =>
        if c'.isDigit then pyDigitsAux rest' (acc * 10 + (c'.toNat - 48)) else none
      | [] => none
    else if c.isDigit then pyDigitsAux rest (acc * 10 + (c.toNat - 48)) else none

/-- Parse a nonempty run of decimal digits with optional single underscores
between digits (Python's `digitpart`). -/
def pyDigits? : List Char → Option Nat
  | c :: rest => if c.isDigit then pyDigitsAux rest (c.toNat - 48) else none
  | [] => none

/-- Python `int(s)` on a decimal string: surrounding whitespace stripped,
one optional sign, then a digit run; `none` models a raised `ValueError`. -/
def pyInt? (s : String) : Option Int :=
  match (pyStrip s).data with
  | [] => none
  | c :: rest =>
    if c = '+' then (pyDigits? rest).map fun n => (n : Int)
    else if c = '-' then (pyDigits? rest).map fun n => -(n : Int)
    else (pyDigits? (c :: rest)).map fun n => (n : Int)

/-! ## Insertion-ordered maps (Python `dict` / `defaultdict`) -/

/-- Look up the first binding of `k` in an insertion-ordered association
list, as `dict.__getitem__` does. -/
def lookupA {β : Type} : List (String × β) → String → Option β
  | [], _ => none
  | (k', v) :: t, k => if k' = k then some v else lookupA t k

/-- `defaultdict` read-modify-write: apply `f` to the value bound to `k`,
first inserting the default `d` at the end (insertion order) if `k` is
absent — exactly what `dd[k] = f(dd[k])` does on a `defaultdict`. -/
def updAssoc {β : Type} : List (String × β) → String → β → (β → β) → List (String × β)
  | [], k, d, f => [(k, f d)]
  | (k', v) :: t, k, d, f =>
    if k' = k then (k', f v) :: t else (k', v) :: updAssoc t k d f

/-! ## Aggregator states -/

/-- `PlayerLogProcessor.data : defaultdict(lambda: defaultdict(int))`. -/
abbrev PState := List (String × List (String × Int))

/-- `OperatorLogProcessor.data`: per operator, per match,
`{'kills': int, 'matches': int}` modelled as `Int × Nat`. -/
abbrev OState := List (String × List (String × (Int × Nat)))

/-- The kill count stored for `(p, m)`, `none` when the pair is absent. -/
def lookup2 (st : PState) (p m : String) : Option Int :=
  (lookupA st p).bind fun inner => lookupA inner m

/-- The `(kills, matches)` pair stored for `(o, m)`. -/
def lookupO (st : OState) (o m : String) : Option (Int × Nat) :=
  (lookupA st o).bind fun inner => lookupA inner m

/-- `self.data[p][m] += k` on the player state. -/
def playerFold (st : PState) (p m : String) (k : Int) : PState :=
  updAssoc st p [] fun inner => updAssoc inner m 0 fun v => v + k

/-- The state mutation left behind when `int(nb_kills)` raises in
`PlayerLogProcessor.process_log_line`: the two `defaultdict` subscripts
have already created `data[p]` and `data[p][m] = 0`. -/
def playerFoldFail (st : PState) (p m : String) : PState :=
  updAssoc st p [] fun inner => updAssoc inner m 0 id

/-- The two updates of `OperatorLogProcessor.process_log_line`:
`data[o][m]['kills'] += k` then `data[o][m]['matches'] += 1`. -/
def opFold (st : OState) (o m : String) (k : Int) : OState :=
  updAssoc st o [] fun inner => updAssoc inner m (0, 0) fun v => (v.1 + k, v.2 + 1)

/-- The mutation left when `int(nb_kills)` raises in the operator
processor: `data[o][m]` was created as `{'kills': 0, 'matches': 0}` by the
subscript chain, and neither field was incremented. -/
def opFoldFail (st : OState) (o m : String) : OState :=
  updAssoc st o [] fun inner => updAssoc inner m (0, 0) id

/-! ## `process_log_line` -/

/-- Python `s.split(',')` on the character list: fields between commas,
empty fields kept, `"".split(',') == ['']`. -/
def pySplitCommaAux : List Char → List Char → List String
  | [], cur => [⟨cur.reverse⟩]
  | c :: rest, cur =>
    if c = ',' then ⟨cur.reverse⟩ :: pySplitCommaAux rest []
    else pySplitCommaAux rest (c :: cur)

/-- `line.strip().split(',')`. -/
def splitFields (line : String) : List String :=
  pySplitCommaAux (pyStrip line).data []

/-- The tuple unpacking
`player_id, match_id, operator_id, nb_kills = line.strip().split(',')`:
succeeds exactly when the split yields four fields, else the `ValueError`
is modelled by `none`. -/
def lineView (line : String) : Option (String × String × String × String) :=
  match splitFields line with
  | [p, m, o, nb] => some (p, m, o, nb)
  | _ => none

/-- The parsing step of `process_log_line`: unpack the four fields and
convert `nb_kills` with `int`.  `none` models the `ValueError` raised on a
wrong field count or a non-integer kill field. -/
def parseLine? (line : String) : Option (String × String × String × Int) :=
  (lineView line).bind fun v =>
    (pyInt? v.2.2.2).map fun k => (v.1, v.2.1, v.2.2.1, k)

/-- `PlayerLogProcessor.process_log_line`, returning the new state and
whether the line was processed without raising.  A four-field line whose
kill field fails `int` still mutates the state (see `playerFoldFail`). -/
def player_process_log_line (st : PState) (line : String) : PState × Bool :=
  match lineView line with
  | some (p, m, _o, nb) =>
    match pyInt? nb with
    | some k => (playerFold st p m k, true)
    | none => (playerFoldFail st p m, false)
  | none => (st, false)

/-- `OperatorLogProcessor.process_log_line`. -/
def operator_process_log_line (st : OState) (line : String) : OState × Bool :=
  match lineView line with
  | some (_p, m, o, nb) =>
    match pyInt? nb with
    | some k => (opFold st o m k, true)
    | none => (opFoldFail st o m, false)
  | none => (st, false)

/-! ## Parsed records (spec §3 `LogRecord`) -/

/-- One parsed log record `{player_id, match_id, operator_id, kills}`. -/
structure LogRecord where
  player_id : String
  match_id : String
  operator_id : String
  kills : Int
deriving DecidableEq

/-- Fold one record into the player state. -/
def pStep (st : PState) (r : LogRecord) : PState :=
  playerFold st r.player_id r.match_id r.kills

/-- Fold one record into the operator state. -/
def oStep (st : OState) (r : LogRecord) : OState :=
  opFold st r.operator_id r.match_id r.kills

/-- Fold a sequence of records into a fresh player aggregator. -/
def foldRecsP (l : List LogRecord) : PState :=
  l.foldl pStep []

/-- Fold a sequence of records into a fresh operator aggregator. -/
def foldRecsO (l : List LogRecord) : OState :=
  l.foldl oStep []

/-! ## Ranking and report generation -/

/-- The float ratio `kills / matches`, modelled on `ℚ` (built with
`mkRat` so that it evaluates; `ratio_eq_div` below shows it is exactly the
real-number division `kills / matches`). -/
def ratio (kc : Int × Nat) : ℚ :=
  mkRat kc.1 kc.2

/-- Python string `<`: lexicographic on code points. -/
def pyLt : List Char → List Char → Bool
  | [], [] => false
  | [], _ :: _ => true
  | _ :: _, [] => false
  | a :: as, b :: bs => if a < b then true else if b < a then false else pyLt as bs

/-- Python string `<=` on `a` and `b`: not `b < a`. -/
def pyLe (a b : String) : Bool :=
  !(pyLt b.data a.data)

/-- The total preorder realised by Python's stable
`sorted(..., key=lambda x: (-x[1], x[0]))` in the player report:
descending kill count, ties by ascending match id. -/
def pKey (a b : String × Int) : Prop :=
  b.2 < a.2 ∨ (a.2 = b.2 ∧ pyLe a.1 b.1 = true)

/-- The total preorder of the operator report sort,
`key=lambda x: (-x[1]['kills'] / x[1]['matches'], x[0])`. -/
def oKey (a b : String × (Int × Nat)) : Prop :=
  ratio b.2 < ratio a.2 ∨ (ratio a.2 = ratio b.2 ∧ pyLe a.1 b.1 = true)

instance : DecidableRel pKey := fun a b => by
  unfold pKey; infer_instance

instance : DecidableRel oKey := fun a b => by
  unfold oKey; infer_instance

/-- `sorted(match_kills.items(), key=...)[:n]` for the player report. -/
def playerRank (inner : List (String × Int)) (n : Nat) : List (String × Int) :=
  (List.insertionSort pKey inner).take n

/-- `sorted(match_data.items(), key=...)[:n]` for the operator report. -/
def opRank (inner : List (String × (Int × Nat))) (n : Nat) :
    List (String × (Int × Nat)) :=
  (List.insertionSort oKey inner).take n

/-- Python `sep.join(strings)`. -/
def joinSep (sep : String) : List String → String
  | [] => ""
  | [s] => s
  | s :: rest => s ++ sep ++ joinSep sep (rest)

/-- Round the nonnegative fraction `num / den` (`den > 0`) to the nearest
natural number, halves to the even neighbour — the rounding of CPython's
fixed-point float formatting, computed on integers. -/
def roundHalfEven (num den : Nat) : Nat :=
  let quo := num / den
  let rem := num % den
  if 2 * rem < den then quo
  else if den < 2 * rem then quo + 1
  else if quo % 2 = 0 then quo else quo + 1

/-- Python `f"{x:.2f}"`: sign of the value, then `|x| * 100` rounded
half-to-even and printed as integer part, `'.'`, and exactly two
fractional digits. -/
def fmt2 (q : ℚ) : String :=
  let a := roundHalfEven (q.num.natAbs * 100) q.den
  (if q < 0 then "-" else "") ++ toString (a / 100) ++ "." ++
    String.mk [Nat.digitChar (a % 100 / 10), Nat.digitChar (a % 10)]

/-- One line `f"{player_id}|" + ",".join(f"{match_id}:{nb_kills}" ...)` of
the player report. -/
def player_line (p : String) (inner : List (String × Int)) (n : Nat) : String :=
  p ++ "|" ++ joinSep "," ((playerRank inner n).map fun e => e.1 ++ ":" ++ toString e.2)

/-- One line `f"{operator_id}|{match_report}"` of the operator report. -/
def operator_line (o : String) (inner : List (String × (Int × Nat))) (n : Nat) : String :=
  o ++ "|" ++ joinSep "," ((opRank inner n).map fun e => e.1 ++ ":" ++ fmt2 (ratio e.2))

/-- The serialized text `PlayerLogProcessor.generate_report` writes:
lines joined by `"\n"`, plus one trailing `"\n"`. -/
def player_generate_report (st : PState) (n : Nat) : String :=
  joinSep "\n" (st.map fun pr => player_line pr.1 pr.2 n) ++ "\n"

/-- The serialized text `OperatorLogProcessor.generate_report` writes:
lines joined by `"\n"`, no trailing newline. -/
def operator_generate_report (st : OState) (n : Nat) : String :=
  joinSep "\n" (st.map fun pr => operator_line pr.1 pr.2 n)

/-! ## The `process_logs` orchestration loop -/

/-- The inner loop of `process_logs` over one file for the player
processor: `for idx, line in enumerate(file): try ... except` starting at
index `i`.  Returns the final state and the error events
`(log_file, idx)` printed by the `except` branch, in order. -/
def processLinesP (fname : String) : PState → List String → Nat → PState × List (String × Nat)
  | st, [], _ => (st, [])
  | st, l :: rest, i =>
    let pr := player_process_log_line st l
    let r := processLinesP fname pr.1 rest (i + 1)
    (r.1, if pr.2 then r.2 else (fname, i) :: r.2)

/-- `process_logs` for a single player processor over the resolved log
files (each a name and its list of lines): final state and error events. -/
def process_logs_player (files : List (String × List String)) :
    PState × List (String × Nat) :=
  files.foldl
    (fun acc fl =>
      let r := processLinesP fl.1 acc.1 fl.2 0
      (r.1, acc.2 ++ r.2))
    ([], [])

/-- Fold raw lines into a player state, ignoring per-line failures
(the state still carries their partial mutations). -/
def foldLinesP (st : PState) (lines : List String) : PState :=
  lines.foldl (fun s l => (player_process_log_line s l).1) st

/-- Fold raw lines into an operator state. -/
def foldLinesO (st : OState) (lines : List String) : OState :=
  lines.foldl (fun s l => (operator_process_log_line s l).1) st

/-- The five-record concrete scenario of spec §8. -/
def demoLines : List String :=
  ["player1,match1,operator1,5",
   "player2,match1,operator1,3",
   "player1,match2,operator2,2",
   "player2,match2,operator1,4",
   "player1,match3,operator2,1"]

/-! ## Derived predicates and observation functions -/

/-- The records mentioning the `(player, match)` pair. -/
def pMatch (p m : String) (r : LogRecord) : Bool :=
  r.player_id == p && r.match_id == m

/-- The records mentioning the `(operator, match)` pair. -/
def oMatch (o m : String) (r : LogRecord) : Bool :=
  r.operator_id == o && r.match_id == m

/-- Total kills observed for `(p, m)` in a record sequence. -/
def sumKillsP (l : List LogRecord) (p m : String) : Int :=
  ((l.filter (pMatch p m)).map LogRecord.kills).sum

/-- Total kills observed for `(o, m)` in a record sequence. -/
def sumKillsO (l : List LogRecord) (o m : String) : Int :=
  ((l.filter (oMatch o m)).map LogRecord.kills).sum

/-- Every stored `(kills, matches)` entry has `matches ≥ 1`. -/
def OInv (st : OState) : Prop :=
  ∀ pr ∈ st, ∀ e ∈ pr.2, 1 ≤ e.2.2

/-- The state accumulated by `process_logs` over the resolved files. -/
def processFilesStateP (st : PState) (files : List (String × List String)) : PState :=
  files.foldl (fun s fl => foldLinesP s fl.2) st

/-- The error events printed by `process_logs` over the resolved files. -/
def processFilesErrorsP (st : PState) : List (String × List String) → List (String × Nat)
  | [] => []
  | fl :: rest =>
    (processLinesP fl.1 st fl.2 0).2 ++ processFilesErrorsP (foldLinesP st fl.2) rest

/-- The number of newline characters at the very end of a string. -/
def trailingNL (s : String) : Nat :=
  (s.data.reverse.takeWhile fun c => c = '\n').length

/-- The string is nonempty and does not end in a newline. -/
def lastCharSafe (s : String) : Prop :=
  ∃ c, s.data.getLast? = some c ∧ c ≠ '\n'

/-- The tail of a digit run after its first digit (`('_'? digit)*`),
characterized declaratively: only digits and underscores, the last
character (if any) is a digit, and no two consecutive underscores. -/
def TailGood (cs : List Char) : Prop :=
  (∀ c ∈ cs, c.isDigit = true ∨ c = '_') ∧
  (∀ c, cs.getLast? = some c → c.isDigit = true) ∧
  cs.Chain' fun a b => a = '_' → b ≠ '_'

/-- A valid Python `digitpart`: nonempty, starts and ends with a digit,
only digits and isolated underscores in between. -/
def GoodRun (cs : List Char) : Prop :=
  cs ≠ [] ∧
  (∀ c ∈ cs, c.isDigit = true ∨ c = '_') ∧
  (∀ c, cs.head? = some c → c.isDigit = true) ∧
  (∀ c, cs.getLast? = some c → c.isDigit = true) ∧
  cs.Chain' fun a b => a = '_' → b ≠ '_'

/-- What Python `int()` accepts, declaratively: after stripping
whitespace, an optional single sign followed by a valid digit run. -/
def PyIntString (s : String) : Prop :=
  match (pyStrip s).data with
  | [] => False
  | c :: rest =>
    if c = '+' then GoodRun rest
    else if c = '-' then GoodRun rest
    else GoodRun (c :: rest)


/-! ## Association-list lemmas -/

theorem lookupA_updAssoc {β : Type} (l : List (String × β)) (k k' : String)
    (d : β) (f : β → β) :
    lookupA (updAssoc l k d f) k' =
      if k = k' then some (f ((lookupA l k).getD d)) else lookupA l k' := by
  induction l with
  | nil =>
    by_cases h : k = k' <;> simp [updAssoc, lookupA, h]
  | cons hd tl ih =>
    obtain ⟨k₀, v⟩ := hd
    by_cases h₀ : k₀ = k
    · subst h₀
      by_cases h' : k₀ = k' <;> simp [updAssoc, lookupA, h']
    · by_cases h' : k₀ = k'
      · subst h'
        have hk : k ≠ k₀ := fun h => h₀ h.symm
        simp [updAssoc, lookupA, h₀, hk]
      · simp [updAssoc, lookupA, h₀, h', ih]

/-- Every element of `updAssoc l k d f` is an element of `l` or has a
value of the form `f v`. -/
theorem updAssoc_preserve {β : Type} (P : β → Prop) (l : List (String × β))
    (k : String) (d : β) (f : β → β)
    (hl : ∀ x ∈ l, P x.2) (hd : P (f d)) (hf : ∀ v, P v → P (f v)) :
    ∀ x ∈ updAssoc l k d f, P x.2 := by
  induction l with
  | nil =>
    intro x hx
    simp only [updAssoc, List.mem_singleton] at hx
    subst hx; exact hd
  | cons hd' tl ih =>
    obtain ⟨k₀, v⟩ := hd'
    intro x hx
    by_cases h₀ : k₀ = k
    · subst h₀
      simp only [updAssoc, if_pos rfl, List.mem_cons] at hx
      cases hx with
      | head => exact hf v (hl _ (List.mem_cons_self _ _))
      | tail _ h => exact hl _ (List.mem_cons_of_mem _ h)
    · simp only [updAssoc, if_neg h₀, List.mem_cons] at hx
      cases hx with
      | inl h => rw [h]; exact hl _ (List.mem_cons_self _ _)
      | inr h => exact ih (fun y hy => hl _ (List.mem_cons_of_mem _ hy)) x h

/-- Effect of a nested `defaultdict` update on the nested lookup. -/
theorem lookupNest_updAssoc {β : Type} (st : List (String × List (String × β)))
    (p₀ m₀ : String) (d : β) (g : β → β) (p m : String) :
    ((lookupA (updAssoc st p₀ [] fun inner => updAssoc inner m₀ d g) p).bind
        fun inner => lookupA inner m) =
      if p₀ = p ∧ m₀ = m then
        some (g (((lookupA st p).bind fun inner => lookupA inner m).getD d))
      else (lookupA st p).bind fun inner => lookupA inner m := by
  by_cases hp : p₀ = p
  · subst hp
    by_cases hm : m₀ = m
    · subst hm
      simp only [lookupA_updAssoc, if_pos rfl, Option.some_bind, and_self, if_true]
      cases h : lookupA st p₀ <;> simp [h, lookupA]
    · simp only [lookupA_updAssoc, if_pos rfl, Option.some_bind, if_neg hm,
        if_neg fun hc : _ ∧ _ => hm hc.2]
      cases h : lookupA st p₀ <;> simp [h, lookupA, lookupA_updAssoc, hm]
  · simp only [lookupA_updAssoc, if_neg hp, if_neg fun hc : _ ∧ _ => hp hc.1]

theorem lookup2_playerFold (st : PState) (p₀ m₀ : String) (k : Int) (p m : String) :
    lookup2 (playerFold st p₀ m₀ k) p m =
      if p₀ = p ∧ m₀ = m then some ((lookup2 st p m).getD 0 + k)
      else lookup2 st p m :=
  lookupNest_updAssoc st p₀ m₀ 0 (fun v => v + k) p m

theorem lookup2_playerFoldFail (st : PState) (p₀ m₀ : String) (p m : String) :
    lookup2 (playerFoldFail st p₀ m₀) p m =
      if p₀ = p ∧ m₀ = m then some ((lookup2 st p m).getD 0)
      else lookup2 st p m :=
  lookupNest_updAssoc st p₀ m₀ 0 id p m

theorem lookupO_opFold (st : OState) (o₀ m₀ : String) (k : Int) (o m : String) :
    lookupO (opFold st o₀ m₀ k) o m =
      if o₀ = o ∧ m₀ = m then
        some (((lookupO st o m).getD (0, 0)).1 + k, ((lookupO st o m).getD (0, 0)).2 + 1)
      else lookupO st o m :=
  lookupNest_updAssoc st o₀ m₀ (0, 0) (fun v => (v.1 + k, v.2 + 1)) o m

theorem lookupO_opFoldFail (st : OState) (o₀ m₀ : String) (o m : String) :
    lookupO (opFoldFail st o₀ m₀) o m =
      if o₀ = o ∧ m₀ = m then some ((lookupO st o m).getD (0, 0))
      else lookupO st o m :=
  lookupNest_updAssoc st o₀ m₀ (0, 0) id o m

/-- `ratio` is exactly the real-number division `kills / matches`. -/
theorem ratio_eq_div (kc : Int × Nat) : ratio kc = (kc.1 : ℚ) / (kc.2 : ℚ) := by
  rw [ratio, Rat.mkRat_eq_divInt, Rat.divInt_eq_div]
  push_cast
  ring

/-! ## Characterization of folding record sequences -/

theorem lookup2_foldl (l : List LogRecord) (st : PState) (p m : String) :
    lookup2 (l.foldl pStep st) p m =
      if l.countP (pMatch p m) = 0 then lookup2 st p m
      else some ((lookup2 st p m).getD 0 + sumKillsP l p m) := by
  induction l generalizing st with
  | nil => simp [sumKillsP]
  | cons r t ih =>
    rw [List.foldl_cons, ih]
    by_cases hr : pMatch p m r = true
    · have hpm : r.player_id = p ∧ r.match_id = m := by
        simpa [pMatch, Bool.and_eq_true, beq_iff_eq] using hr
      have hstep : lookup2 (pStep st r) p m =
          some ((lookup2 st p m).getD 0 + r.kills) := by
        rw [pStep, lookup2_playerFold, if_pos hpm]
      have hc : ¬((r :: t).countP (pMatch p m) = 0) := by
        simp [List.countP_cons, hr]
      have hsum : sumKillsP (r :: t) p m = r.kills + sumKillsP t p m := by
        simp [sumKillsP, List.filter_cons, hr]
      rw [hstep, if_neg hc, hsum]
      by_cases ht : t.countP (pMatch p m) = 0
      · have hts : sumKillsP t p m = 0 := by
          have : t.filter (pMatch p m) = [] := List.filter_eq_nil_iff.mpr
            (by intro a ha; exact (List.countP_eq_zero.mp ht) a ha)
          simp [sumKillsP, this]
        rw [if_pos ht, hts]
        simp
      · rw [if_neg ht]
        simp only [Option.getD_some]
        congr 1
        omega
    · have hpm : ¬(r.player_id = p ∧ r.match_id = m) := by
        intro hc
        exact hr (by simp [pMatch, hc.1, hc.2])
      have hstep : lookup2 (pStep st r) p m = lookup2 st p m := by
        rw [pStep, lookup2_playerFold, if_neg hpm]
      have hc : (r :: t).countP (pMatch p m) = t.countP (pMatch p m) := by
        simp [List.countP_cons, hr]
      have hsum : sumKillsP (r :: t) p m = sumKillsP t p m := by
        simp [sumKillsP, List.filter_cons, hr]
      rw [hstep, hc, hsum]

theorem lookupO_foldl (l : List LogRecord) (st : OState) (o m : String) :
    lookupO (l.foldl oStep st) o m =
      if l.countP (oMatch o m) = 0 then lookupO st o m
      else some (((lookupO st o m).getD (0, 0)).1 + sumKillsO l o m,
                 ((lookupO st o m).getD (0, 0)).2 + l.countP (oMatch o m)) := by
  induction l generalizing st with
  | nil => simp [sumKillsO]
  | cons r t ih =>
    rw [List.foldl_cons, ih]
    by_cases hr : oMatch o m r = true
    · have hpm : r.operator_id = o ∧ r.match_id = m := by
        simpa [oMatch, Bool.and_eq_true, beq_iff_eq] using hr
      have hstep : lookupO (oStep st r) o m =
          some (((lookupO st o m).getD (0, 0)).1 + r.kills,
                ((lookupO st o m).getD (0, 0)).2 + 1) := by
        rw [oStep, lookupO_opFold, if_pos hpm]
      have hc : ¬((r :: t).countP (oMatch o m) = 0) := by
        simp [List.countP_cons, hr]
      have hcnt : (r :: t).countP (oMatch o m) = t.countP (oMatch o m) + 1 := by
        simp [List.countP_cons, hr]
      have hsum : sumKillsO (r :: t) o m = r.kills + sumKillsO t o m := by
        simp [sumKillsO, List.filter_cons, hr]
      rw [hstep, if_neg hc, hsum, hcnt]
      by_cases ht : t.countP (oMatch o m) = 0
      · have hts : sumKillsO t o m = 0 := by
          have : t.filter (oMatch o m) = [] := List.filter_eq_nil_iff.mpr
            (by intro a ha; exact (List.countP_eq_zero.mp ht) a ha)
          simp [sumKillsO, this]
        rw [if_pos ht, hts, ht]
        simp
      · rw [if_neg ht]
        simp only [Option.getD_some, Option.some_inj, Prod.mk.injEq]
        exact ⟨by omega, by omega⟩
    · have hpm : ¬(r.operator_id = o ∧ r.match_id = m) := by
        intro hc
        exact hr (by simp [oMatch, hc.1, hc.2])
      have hstep : lookupO (oStep st r) o m = lookupO st o m := by
        rw [oStep, lookupO_opFold, if_neg hpm]
      have hc : (r :: t).countP (oMatch o m) = t.countP (oMatch o m) := by
        simp [List.countP_cons, hr]
      have hsum : sumKillsO (r :: t) o m = sumKillsO t o m := by
        simp [sumKillsO, List.filter_cons, hr]
      rw [hstep, hc, hsum]

/-! ## Operator matches-count invariant -/

theorem OInv_opFold {st : OState} (hst : OInv st) (o m : String) (k : Int) :
    OInv (opFold st o m k) := by
  intro pr hpr
  refine updAssoc_preserve (fun inner => ∀ e ∈ inner, 1 ≤ e.2.2) st o []
    (fun inner => updAssoc inner m (0, 0) fun v => (v.1 + k, v.2 + 1)) hst ?_ ?_ pr hpr
  · intro e he
    refine updAssoc_preserve (fun v : Int × Nat => 1 ≤ v.2) [] m (0, 0)
      (fun v => (v.1 + k, v.2 + 1)) (by intro x hx; cases hx) (by simp) ?_ e he
    intro v _
    simp
  · intro inner hinner e he
    refine updAssoc_preserve (fun v : Int × Nat => 1 ≤ v.2) inner m (0, 0)
      (fun v => (v.1 + k, v.2 + 1)) hinner (by simp) ?_ e he
    intro v _
    simp

theorem OInv_foldl (l : List LogRecord) :
    ∀ st : OState, OInv st → OInv (l.foldl oStep st) := by
  induction l with
  | nil => intro st h; exact h
  | cons r t ih => intro st h; exact ih _ (OInv_opFold h _ _ _)

theorem OInv_foldRecsO (l : List LogRecord) : OInv (foldRecsO l) :=
  OInv_foldl l [] (by intro pr h; cases h)

/-- The ranked entries all come from the stored inner map. -/
theorem mem_of_mem_opRank {inner : List (String × (Int × Nat))} {n : Nat}
    {e : String × (Int × Nat)} (h : e ∈ opRank inner n) : e ∈ inner :=
  (List.perm_insertionSort oKey inner).subset (List.take_subset n _ h)

/-! ## The Python string order -/

theorem pyLt_cons (a b : Char) (as bs : List Char) :
    pyLt (a :: as) (b :: bs) = true ↔ a < b ∨ (a = b ∧ pyLt as bs = true) := by
  by_cases hab : a < b
  · simp [pyLt, hab]
  · by_cases hba : b < a
    · have hne : ¬a = b := fun h => lt_irrefl a (h ▸ hba)
      simp [pyLt, hab, hba, hne]
    · have heq : a = b := le_antisymm (not_lt.mp hba) (not_lt.mp hab)
      simp [pyLt, hab, hba, heq]

theorem pyLt_asymm : ∀ x y : List Char, pyLt x y = true → pyLt y x = false := by
  intro x
  induction x with
  | nil =>
    intro y h
    cases y with
    | nil => simp [pyLt] at h
    | cons b bs => simp [pyLt]
  | cons a as ih =>
    intro y h
    cases y with
    | nil => simp [pyLt] at h
    | cons b bs =>
      rcases (pyLt_cons a b as bs).mp h with hab | ⟨hab, hrec⟩
      · rw [Bool.eq_false_iff]
        intro hba
        rcases (pyLt_cons b a bs as).mp hba with hba' | ⟨hba', _⟩
        · exact lt_asymm hab hba'
        · exact lt_irrefl a (hba' ▸ hab)
      · rw [Bool.eq_false_iff]
        intro hba
        rcases (pyLt_cons b a bs as).mp hba with hba' | ⟨_, hrec'⟩
        · exact lt_irrefl b (hab ▸ hba')
        · exact absurd hrec' (by rw [ih bs hrec]; simp)

theorem pyLt_trichotomy : ∀ x y : List Char,
    pyLt x y = true ∨ x = y ∨ pyLt y x = true := by
  intro x
  induction x with
  | nil =>
    intro y
    cases y with
    | nil => right; left; rfl
    | cons b bs => left; simp [pyLt]
  | cons a as ih =>
    intro y
    cases y with
    | nil => right; right; simp [pyLt]
    | cons b bs =>
      rcases lt_trichotomy a b with h | h | h
      · left; exact (pyLt_cons a b as bs).mpr (Or.inl h)
      · subst h
        rcases ih bs with h' | h' | h'
        · left; exact (pyLt_cons a a as bs).mpr (Or.inr ⟨rfl, h'⟩)
        · right; left; rw [h']
        · right; right; exact (pyLt_cons a a bs as).mpr (Or.inr ⟨rfl, h'⟩)
      · right; right; exact (pyLt_cons b a bs as).mpr (Or.inl h)

theorem pyLt_trans : ∀ x y z : List Char,
    pyLt x y = true → pyLt y z = true → pyLt x z = true := by
  intro x
  induction x with
  | nil =>
    intro y z hxy hyz
    cases y with
    | nil => simp [pyLt] at hxy
    | cons b bs =>
      cases z with
      | nil => simp [pyLt] at hyz
      | cons c cs => simp [pyLt]
  | cons a as ih =>
    intro y z hxy hyz
    cases y with
    | nil => simp [pyLt] at hxy
    | cons b bs =>
      cases z with
      | nil => simp [pyLt] at hyz
      | cons c cs =>
        rcases (pyLt_cons a b as bs).mp hxy with hab | ⟨hab, hrecab⟩ <;>
          rcases (pyLt_cons b c bs cs).mp hyz with hbc | ⟨hbc, hrecbc⟩
        · exact (pyLt_cons a c as cs).mpr (Or.inl (lt_trans hab hbc))
        · exact (pyLt_cons a c as cs).mpr (Or.inl (hbc ▸ hab))
        · exact (pyLt_cons a c as cs).mpr (Or.inl (hab ▸ hbc))
        · exact (pyLt_cons a c as cs).mpr
            (Or.inr ⟨hab.trans hbc, ih bs cs hrecab hrecbc⟩)

theorem pyLe_iff (a b : String) : pyLe a b = true ↔ pyLt b.data a.data = false := by
  simp [pyLe]

theorem pyLe_total (a b : String) : pyLe a b = true ∨ pyLe b a = true := by
  cases h : pyLt b.data a.data with
  | false => left; exact (pyLe_iff a b).mpr h
  | true => right; exact (pyLe_iff b a).mpr (pyLt_asymm _ _ h)

theorem pyLe_trans {a b c : String} (hab : pyLe a b = true) (hbc : pyLe b c = true) :
    pyLe a c = true := by
  rw [pyLe_iff] at hab hbc ⊢
  rw [Bool.eq_false_iff]
  intro hca
  rcases pyLt_trichotomy c.data b.data with h | h | h
  · rw [h] at hbc; cases hbc
  · rw [h] at hca; rw [hca] at hab; cases hab
  · rw [pyLt_trans b.data c.data a.data h hca] at hab; cases hab

/-! ## The sort keys are total preorders -/

instance : IsTotal (String × Int) pKey := by
  constructor
  intro a b
  rcases lt_trichotomy a.2 b.2 with h | h | h
  · right; left; exact h
  · rcases pyLe_total a.1 b.1 with h' | h'
    · left; right; exact ⟨h, h'⟩
    · right; right; exact ⟨h.symm, h'⟩
  · left; left; exact h

instance : IsTrans (String × Int) pKey := by
  constructor
  intro a b c hab hbc
  rcases hab with hab | ⟨hab, hab'⟩ <;> rcases hbc with hbc | ⟨hbc, hbc'⟩
  · left; exact lt_trans hbc hab
  · left; exact hbc ▸ hab
  · left; exact hab ▸ hbc
  · right; exact ⟨hab.trans hbc, pyLe_trans hab' hbc'⟩

instance : IsTotal (String × (Int × Nat)) oKey := by
  constructor
  intro a b
  rcases lt_trichotomy (ratio a.2) (ratio b.2) with h | h | h
  · right; left; exact h
  · rcases pyLe_total a.1 b.1 with h' | h'
    · left; right; exact ⟨h, h'⟩
    · right; right; exact ⟨h.symm, h'⟩
  · left; left; exact h

instance : IsTrans (String × (Int × Nat)) oKey := by
  constructor
  intro a b c hab hbc
  rcases hab with hab | ⟨hab, hab'⟩ <;> rcases hbc with hbc | ⟨hbc, hbc'⟩
  · left; exact lt_trans hbc hab
  · left; exact hbc ▸ hab
  · left; exact hab ▸ hbc
  · right; exact ⟨hab.trans hbc, pyLe_trans hab' hbc'⟩

/-! ## Shape of the two-decimal formatting -/

theorem digitChar_isDigit {n : Nat} (h : n < 10) : (Nat.digitChar n).isDigit = true := by
  interval_cases n <;> rfl

theorem fmt2_twoDecimals (q : ℚ) :
    ∃ pre c1 c2, fmt2 q = pre ++ "." ++ String.mk [c1, c2] ∧
      c1.isDigit = true ∧ c2.isDigit = true := by
  refine ⟨(if q < 0 then "-" else "") ++
      toString (roundHalfEven (q.num.natAbs * 100) q.den / 100),
    Nat.digitChar (roundHalfEven (q.num.natAbs * 100) q.den % 100 / 10),
    Nat.digitChar (roundHalfEven (q.num.natAbs * 100) q.den % 10), rfl, ?_, ?_⟩
  · exact digitChar_isDigit (by omega)
  · exact digitChar_isDigit (by omega)

/-! ## Orchestration lemmas -/

theorem player_ok_iff (st : PState) (l : String) :
    (player_process_log_line st l).2 = (parseLine? l).isSome := by
  cases h : lineView l with
  | none => simp [player_process_log_line, parseLine?, h]
  | some v =>
    obtain ⟨p, m, o, nb⟩ := v
    cases hk : pyInt? nb with
    | none => simp [player_process_log_line, parseLine?, h, hk]
    | some k => simp [player_process_log_line, parseLine?, h, hk]

theorem player_step_wf (st : PState) (l : String) (p m o : String) (k : Int)
    (h : parseLine? l = some (p, m, o, k)) :
    player_process_log_line st l = (playerFold st p m k, true) := by
  rw [parseLine?] at h
  cases hv : lineView l with
  | none => rw [hv] at h; cases h
  | some v =>
    obtain ⟨p', m', o', nb⟩ := v
    rw [hv] at h
    simp only [Option.some_bind] at h
    cases hk : pyInt? nb with
    | none => rw [hk] at h; cases h
    | some k' =>
      rw [hk] at h
      simp only [Option.some_bind, Option.map_some', Option.some.injEq,
        Prod.mk.injEq] at h
      obtain ⟨h1, h2, h3, h4⟩ := h
      subst h1; subst h2; subst h3; subst h4
      simp [player_process_log_line, hv, hk]

theorem player_step_badInt (st : PState) (l : String) (p m o nb : String)
    (hv : lineView l = some (p, m, o, nb)) (hk : pyInt? nb = none) :
    player_process_log_line st l = (playerFoldFail st p m, false) := by
  simp [player_process_log_line, hv, hk]

theorem operator_step_badInt (st : OState) (l : String) (p m o nb : String)
    (hv : lineView l = some (p, m, o, nb)) (hk : pyInt? nb = none) :
    operator_process_log_line st l = (opFoldFail st o m, false) := by
  simp [operator_process_log_line, hv, hk]

theorem player_step_noView (st : PState) (l : String) (hv : lineView l = none) :
    player_process_log_line st l = (st, false) := by
  simp [player_process_log_line, hv]

theorem foldLinesP_cons (st : PState) (l : String) (t : List String) :
    foldLinesP st (l :: t) = foldLinesP (player_process_log_line st l).1 t := by
  simp [foldLinesP]

theorem foldLinesP_append (st : PState) (xs ys : List String) :
    foldLinesP st (xs ++ ys) = foldLinesP (foldLinesP st xs) ys := by
  simp [foldLinesP, List.foldl_append]

theorem processLinesP_state (f : String) (st : PState) (lines : List String) (i : Nat) :
    (processLinesP f st lines i).1 = foldLinesP st lines := by
  induction lines generalizing st i with
  | nil => simp [processLinesP, foldLinesP]
  | cons l t ih =>
    rw [foldLinesP_cons]
    simp only [processLinesP]
    cases hok : (player_process_log_line st l).2 <;> simp [ih]

theorem processLinesP_append (f : String) (st : PState) (xs ys : List String) (i : Nat) :
    (processLinesP f st (xs ++ ys) i).2 =
      (processLinesP f st xs i).2 ++
      (processLinesP f (foldLinesP st xs) ys (i + xs.length)).2 := by
  induction xs generalizing st i with
  | nil => simp [processLinesP, foldLinesP]
  | cons l t ih =>
    simp only [List.cons_append, processLinesP, foldLinesP_cons]
    have harith : i + 1 + t.length = i + (t.length + 1) := by omega
    cases hok : (player_process_log_line st l).2 <;>
      simp [ih, List.length_cons, harith]

theorem processLinesP_wf (f : String) (st : PState) (lines : List String) (i : Nat)
    (h : ∀ l ∈ lines, (parseLine? l).isSome = true) :
    (processLinesP f st lines i).2 = [] := by
  induction lines generalizing st i with
  | nil => rfl
  | cons l t ih =>
    have hok : (player_process_log_line st l).2 = true := by
      rw [player_ok_iff]
      exact h l (List.mem_cons_self _ _)
    simp only [processLinesP, hok, if_true]
    exact ih _ _ fun l' hl' => h l' (List.mem_cons_of_mem _ hl')

theorem processLinesP_bad_single (f : String) (st : PState) (bad : String) (i : Nat)
    (hbad : parseLine? bad = none) :
    (processLinesP f st [bad] i).2 = [(f, i)] := by
  have hok : (player_process_log_line st bad).2 = false := by
    rw [player_ok_iff, hbad]
    rfl
  simp [processLinesP, hok]

theorem process_logs_player_eq (files : List (String × List String)) :
    process_logs_player files =
      (processFilesStateP [] files, processFilesErrorsP [] files) := by
  suffices H : ∀ (fs : List (String × List String)) (st : PState) (acc : List (String × Nat)),
      fs.foldl (fun acc fl =>
        let r := processLinesP fl.1 acc.1 fl.2 0
        (r.1, acc.2 ++ r.2)) (st, acc) =
      (processFilesStateP st fs, acc ++ processFilesErrorsP st fs) by
    rw [process_logs_player, H files ([] : PState) []]
    simp
  intro fs
  induction fs with
  | nil => intro st acc; simp [processFilesStateP, processFilesErrorsP]
  | cons fl rest ih =>
    intro st acc
    simp only [List.foldl_cons, processFilesStateP, processFilesErrorsP]
    rw [ih]
    simp [processFilesStateP, processLinesP_state, List.append_assoc]

/-! ## Shape of the serialized reports -/

theorem trailingNL_eq_zero {s : String} (h : lastCharSafe s) : trailingNL s = 0 := by
  obtain ⟨c, hc, hcn⟩ := h
  rw [trailingNL]
  rw [← List.head?_reverse] at hc
  cases hr : s.data.reverse with
  | nil => rw [hr] at hc; cases hc
  | cons c' t =>
    rw [hr] at hc
    simp only [List.head?_cons, Option.some_inj] at hc
    subst hc
    rw [List.takeWhile_cons, if_neg (by simpa using hcn)]
    rfl

theorem trailingNL_append_newline {s : String} (h : lastCharSafe s) :
    trailingNL (s ++ "\n") = 1 := by
  obtain ⟨c, hc, hcn⟩ := h
  rw [trailingNL, String.data_append]
  show ((s.data ++ ['\n']).reverse.takeWhile fun c => c = '\n').length = 1
  rw [List.reverse_append]
  rw [← List.head?_reverse] at hc
  cases hr : s.data.reverse with
  | nil => rw [hr] at hc; cases hc
  | cons c' t =>
    rw [hr] at hc
    simp only [List.head?_cons, Option.some_inj] at hc
    subst hc
    simp only [List.reverse_singleton, List.singleton_append, List.takeWhile_cons]
    rw [if_pos (by rfl), if_neg (by simpa using hcn)]
    rfl

theorem lastCharSafe_append {a b : String} (h : lastCharSafe b) :
    lastCharSafe (a ++ b) := by
  obtain ⟨c, hc, hcn⟩ := h
  refine ⟨c, ?_, hcn⟩
  rw [String.data_append, List.getLast?_append, hc]
  rfl

/-- Every character `Nat.toDigitsCore` pushes in front of the accumulator
is a decimal digit, and at least one is pushed. -/
theorem toDigitsCore_shape :
    ∀ (fuel n : Nat) (acc : List Char),
      ∃ ds, Nat.toDigitsCore 10 (fuel + 1) n acc = ds ++ acc ∧ ds ≠ [] ∧
        ∀ c ∈ ds, c.isDigit = true := by
  intro fuel
  induction fuel with
  | zero =>
    intro n acc
    refine ⟨[Nat.digitChar (n % 10)], ?_, by simp, ?_⟩
    · rw [Nat.toDigitsCore]
      by_cases h : n / 10 = 0 <;> simp [h, Nat.toDigitsCore]
    · intro c hc
      simp only [List.mem_singleton] at hc
      subst hc
      exact digitChar_isDigit (Nat.mod_lt _ (by norm_num))
  | succ fuel ih =>
    intro n acc
    by_cases h : n / 10 = 0
    · refine ⟨[Nat.digitChar (n % 10)], ?_, by simp, ?_⟩
      · rw [Nat.toDigitsCore]
        simp [h]
      · intro c hc
        simp only [List.mem_singleton] at hc
        subst hc
        exact digitChar_isDigit (Nat.mod_lt _ (by norm_num))
    · obtain ⟨ds, hds, hne, hdig⟩ := ih (n / 10) (Nat.digitChar (n % 10) :: acc)
      refine ⟨ds ++ [Nat.digitChar (n % 10)], ?_, by simp, ?_⟩
      · rw [Nat.toDigitsCore]
        simp only [h, if_false]
        rw [hds]
        simp
      · intro c hc
        rcases List.mem_append.mp hc with hc | hc
        · exact hdig c hc
        · simp only [List.mem_singleton] at hc
          subst hc
          exact digitChar_isDigit (Nat.mod_lt _ (by norm_num))

/-- `str(n)` for a natural number is a nonempty all-digit string. -/
theorem natRepr_shape (n : Nat) :
    (Nat.repr n).data ≠ [] ∧ ∀ c ∈ (Nat.repr n).data, c.isDigit = true := by
  obtain ⟨ds, hds, hne, hdig⟩ := toDigitsCore_shape n n []
  have : (Nat.repr n).data = ds := by
    rw [Nat.repr, Nat.toDigits, hds]
    simp [List.asString]
  rw [this]
  exact ⟨hne, hdig⟩

/-- `str(k)` for a Python integer ends in a decimal digit. -/
theorem intRepr_last_digit (k : Int) :
    ∃ c, (toString k).data.getLast? = some c ∧ c.isDigit = true := by
  cases k with
  | ofNat n =>
    obtain ⟨hne, hdig⟩ := natRepr_shape n
    have hts : (toString (Int.ofNat n)).data = (Nat.repr n).data := rfl
    rw [hts]
    refine ⟨(Nat.repr n).data.getLast hne, List.getLast?_eq_getLast _ hne, ?_⟩
    exact hdig _ (List.getLast_mem hne)
  | negSucc n =>
    obtain ⟨hne, hdig⟩ := natRepr_shape (n + 1)
    have hts : (toString (Int.negSucc n)).data = '-' :: (Nat.repr (n + 1)).data := rfl
    rw [hts]
    refine ⟨(Nat.repr (n + 1)).data.getLast hne, ?_, ?_⟩
    · rw [List.getLast?_cons, List.getLast?_eq_getLast _ hne]
      rfl
    · exact hdig _ (List.getLast_mem hne)

theorem isDigit_ne_newline {c : Char} (h : c.isDigit = true) : c ≠ '\n' := by
  intro hc
  subst hc
  cases h

theorem joinSep_lastChar (sep : String) :
    ∀ lines : List String, lines ≠ [] → (∀ x ∈ lines, lastCharSafe x) →
      lastCharSafe (joinSep sep lines) := by
  intro lines
  induction lines with
  | nil => intro h; cases h rfl
  | cons s rest ih =>
    intro _ hall
    cases rest with
    | nil => exact hall s (List.mem_singleton_self _)
    | cons s' rest' =>
      have hj := ih (by simp) fun x hx => hall x (List.mem_cons_of_mem _ hx)
      show lastCharSafe (s ++ sep ++ joinSep sep (s' :: rest'))
      exact lastCharSafe_append hj

/-- Every player report line ends in `'|'` or a decimal digit. -/
theorem player_line_lastChar (p : String) (inner : List (String × Int)) (n : Nat) :
    lastCharSafe (player_line p inner n) := by
  rw [player_line]
  cases hr : playerRank inner n with
  | nil =>
    refine ⟨'|', ?_, by decide⟩
    simp [joinSep, String.data_append, List.getLast?_append]
  | cons e rest =>
    apply lastCharSafe_append
    apply joinSep_lastChar _ _ (by simp)
    intro x hx
    rw [List.mem_map] at hx
    obtain ⟨a, _, hax⟩ := hx
    obtain ⟨c, hc, hdig⟩ := intRepr_last_digit a.2
    refine ⟨c, ?_, isDigit_ne_newline hdig⟩
    rw [← hax]
    show ((a.1 ++ ":" ++ toString a.2).data).getLast? = some c
    rw [String.data_append, List.getLast?_append, hc]
    rfl

/-- Every operator report line ends in `'|'` or a decimal digit. -/
theorem operator_line_lastChar (o : String) (inner : List (String × (Int × Nat)))
    (n : Nat) : lastCharSafe (operator_line o inner n) := by
  rw [operator_line]
  cases hr : opRank inner n with
  | nil =>
    refine ⟨'|', ?_, by decide⟩
    simp [joinSep, String.data_append, List.getLast?_append]
  | cons e rest =>
    apply lastCharSafe_append
    apply joinSep_lastChar _ _ (by simp)
    intro x hx
    rw [List.mem_map] at hx
    obtain ⟨a, _, hax⟩ := hx
    obtain ⟨pre, c1, c2, hfmt, _, hd2⟩ := fmt2_twoDecimals (ratio a.2)
    refine ⟨c2, ?_, isDigit_ne_newline hd2⟩
    rw [← hax]
    show ((a.1 ++ ":" ++ fmt2 (ratio a.2)).data).getLast? = some c2
    rw [hfmt]
    have h2 : (String.mk [c1, c2]).data.getLast? = some c2 := rfl
    simp only [String.data_append, List.getLast?_append, h2]
    rfl

/-! ## Declarative characterization of Python integer literals -/

theorem isDigit_ne_underscore {c : Char} (h : c.isDigit = true) : c ≠ '_' := by
  intro hc
  subst hc
  cases h

theorem tailGood_nil : TailGood [] := by
  refine ⟨?_, ?_, ?_⟩
  · intro c hc; cases hc
  · intro c hc; cases hc
  · exact List.chain'_nil

theorem tailGood_cons_digit {c : Char} (hc : c.isDigit = true) (rest : List Char) :
    TailGood (c :: rest) ↔ TailGood rest := by
  constructor
  · rintro ⟨h1, h2, h3⟩
    refine ⟨fun x hx => h1 x (List.mem_cons_of_mem _ hx), ?_,
      (List.chain'_cons'.mp h3).2⟩
    intro x hx
    apply h2 x
    cases rest with
    | nil => cases hx
    | cons y ys => rw [List.getLast?_cons_cons]; exact hx
  · rintro ⟨h1, h2, h3⟩
    refine ⟨?_, ?_, ?_⟩
    · intro x hx
      rcases List.mem_cons.mp hx with rfl | hx
      · left; exact hc
      · exact h1 x hx
    · intro x hx
      cases rest with
      | nil =>
        simp only [List.getLast?_singleton, Option.some_inj] at hx
        subst hx; exact hc
      | cons y ys => rw [List.getLast?_cons_cons] at hx; exact h2 x hx
    · rw [List.chain'_cons']
      exact ⟨fun b _ hcc => absurd hcc (isDigit_ne_underscore hc), h3⟩

theorem tailGood_underscore {c' : Char} {rest' : List Char} :
    TailGood ('_' :: c' :: rest') ↔ (c'.isDigit = true ∧ TailGood rest') := by
  constructor
  · rintro ⟨h1, h2, h3⟩
    have h3' := List.chain'_cons.mp h3
    have hcd : c'.isDigit = true := by
      rcases h1 c' (by simp) with h | h
      · exact h
      · exact absurd h (h3'.1 rfl)
    refine ⟨hcd, ?_⟩
    have ht : TailGood (c' :: rest') :=
      ⟨fun x hx => h1 x (List.mem_cons_of_mem _ hx),
       fun x hx => h2 x (by rw [List.getLast?_cons_cons]; exact hx), h3'.2⟩
    exact (tailGood_cons_digit hcd rest').mp ht
  · rintro ⟨hcd, ht⟩
    obtain ⟨h1, h2, h3⟩ := (tailGood_cons_digit hcd rest').mpr ht
    refine ⟨?_, ?_, ?_⟩
    · intro x hx
      rcases List.mem_cons.mp hx with rfl | hx
      · right; rfl
      · exact h1 x hx
    · intro x hx
      rw [List.getLast?_cons_cons] at hx
      exact h2 x hx
    · rw [List.chain'_cons]
      exact ⟨fun _ => isDigit_ne_underscore hcd, h3⟩

theorem pyDigitsAux_isSome_iff :
    ∀ (cs : List Char) (acc : Nat),
      (pyDigitsAux cs acc).isSome = true ↔ TailGood cs := by
  have main : ∀ (n : Nat) (cs : List Char), cs.length ≤ n → ∀ acc : Nat,
      ((pyDigitsAux cs acc).isSome = true ↔ TailGood cs) := by
    intro n
    induction n with
    | zero =>
      intro cs h acc
      obtain rfl : cs = [] := List.length_eq_zero.mp (Nat.le_zero.mp h)
      simpa [pyDigitsAux] using tailGood_nil
    | succ n ih =>
      intro cs hlen acc
      rcases cs with _ | ⟨c, rest⟩
      · simpa [pyDigitsAux] using tailGood_nil
      · by_cases hcu : c = '_'
        · subst hcu
          rcases rest with _ | ⟨c', rest'⟩
          · simp only [pyDigitsAux, eq_self_iff_true, if_true]
            constructor
            · intro h; cases h
            · rintro ⟨_, hlast, _⟩
              have h := hlast '_' rfl
              cases h
          · simp only [pyDigitsAux, eq_self_iff_true, if_true]
            rw [tailGood_underscore]
            by_cases hc' : c'.isDigit = true
            · rw [if_pos hc',
                ih rest' (by simp only [List.length_cons] at hlen ⊢; omega) _]
              simp [hc']
            · rw [if_neg hc']
              constructor
              · intro h; cases h
              · rintro ⟨h, _⟩; exact absurd h hc'
        · rw [pyDigitsAux.eq_def]
          simp only [if_neg hcu]
          by_cases hc : c.isDigit = true
          · rw [if_pos hc,
              ih rest (by simp only [List.length_cons] at hlen ⊢; omega) _,
              tailGood_cons_digit hc]
          · rw [if_neg hc]
            constructor
            · intro h; cases h
            · rintro ⟨h1, _, _⟩
              rcases h1 c (List.mem_cons_self _ _) with h | h
              · exact absurd h hc
              · exact absurd h hcu
  intro cs acc
  exact main cs.length cs le_rfl acc

theorem pyDigits_isSome_iff (cs : List Char) :
    (pyDigits? cs).isSome = true ↔ GoodRun cs := by
  cases cs with
  | nil =>
    constructor
    · intro h; cases h
    · rintro ⟨h, _⟩; exact absurd rfl h
  | cons c rest =>
    show (if c.isDigit then pyDigitsAux rest (c.toNat - 48) else none).isSome = true ↔ _
    by_cases hc : c.isDigit = true
    · rw [if_pos hc, pyDigitsAux_isSome_iff]
      constructor
      · intro ht
        obtain ⟨h1, h2, h3⟩ := (tailGood_cons_digit hc rest).mpr ht
        refine ⟨by simp, h1, ?_, h2, h3⟩
        intro x hx
        simp only [List.head?_cons, Option.some_inj] at hx
        subst hx; exact hc
      · rintro ⟨_, h1, _, h4, h5⟩
        exact (tailGood_cons_digit hc rest).mp ⟨h1, h4, h5⟩
    · rw [if_neg hc]
      constructor
      · intro h; cases h
      · rintro ⟨_, _, h3, _, _⟩
        exact absurd (h3 c rfl) hc

theorem pyInt_isSome_iff (s : String) :
    (pyInt? s).isSome = true ↔ PyIntString s := by
  rw [pyInt?, PyIntString]
  cases h : (pyStrip s).data with
  | nil => simp
  | cons c rest =>
    by_cases h1 : c = '+'
    · simp only [h1, if_pos rfl]
      rw [← pyDigits_isSome_iff]
      cases hd : pyDigits? rest <;> simp [hd]
    · by_cases h2 : c = '-'
      · simp only [if_neg h1, h2, if_pos rfl]
        rw [← pyDigits_isSome_iff]
        cases hd : pyDigits? rest <;> simp [hd]
      · simp only [if_neg h1, if_neg h2]
        rw [← pyDigits_isSome_iff]
        cases hd : pyDigits? (c :: rest) <;> simp [hd]

/-- Unpacking succeeds exactly on a four-element split. -/
theorem lineView_eq_some_iff (line : String) (p m o nb : String) :
    lineView line = some (p, m, o, nb) ↔ splitFields line = [p, m, o, nb] := by
  rw [lineView]
  rcases hs : splitFields line with _ | ⟨a, _ | ⟨b, _ | ⟨c, _ | ⟨d, _ | ⟨e, t⟩⟩⟩⟩⟩ <;>
    simp

/-- Unpacking fails exactly when the field count is not four. -/
theorem lineView_eq_none_iff (line : String) :
    lineView line = none ↔ (splitFields line).length ≠ 4 := by
  rw [lineView]
  rcases hs : splitFields line with _ | ⟨a, _ | ⟨b, _ | ⟨c, _ | ⟨d, _ | ⟨e, t⟩⟩⟩⟩⟩ <;>
    simp

/-- `parseLine?` fails exactly when the stripped line does not split into
four comma-separated fields or the kill field is not a Python integer
literal. -/
theorem parseLine_eq_none_iff (line : String) :
    parseLine? line = none ↔
      ¬∃ p m o nb, splitFields line = [p, m, o, nb] ∧ PyIntString nb := by
  rw [parseLine?]
  cases hv : lineView line with
  | none =>
    simp only [Option.none_bind, true_iff]
    rintro ⟨p, m, o, nb, hs, _⟩
    rw [(lineView_eq_some_iff line p m o nb).mpr hs] at hv
    cases hv
  | some v =>
    obtain ⟨p, m, o, nb⟩ := v
    have hs := (lineView_eq_some_iff line p m o nb).mp hv
    simp only [Option.some_bind]
    constructor
    · intro h
      rintro ⟨p', m', o', nb', hs', hgood⟩
      rw [hs] at hs'
      obtain ⟨rfl, rfl, rfl, rfl⟩ : p = p' ∧ m = m' ∧ o = o' ∧ nb = nb' := by
        simpa using hs'
      have : (pyInt? nb).isSome = true := (pyInt_isSome_iff nb).mpr hgood
      cases hk : pyInt? nb with
      | none => rw [hk] at this; cases this
      | some k => rw [hk] at h; cases h
    · intro h
      cases hk : pyInt? nb with
      | none => rfl
      | some k =>
        exfalso
        exact h ⟨p, m, o, nb, hs, (pyInt_isSome_iff nb).mp (by rw [hk]; rfl)⟩

/-! ## Small bridging lemmas used by the claims -/

theorem lookupA_mem {β : Type} {l : List (String × β)} {k : String} {v : β}
    (h : lookupA l k = some v) : (k, v) ∈ l := by
  induction l with
  | nil => cases h
  | cons hd tl ih =>
    obtain ⟨k₀, v₀⟩ := hd
    by_cases hk : k₀ = k
    · subst hk
      rw [lookupA, if_pos rfl, Option.some_inj] at h
      subst h
      exact List.mem_cons_self _ _
    · rw [lookupA, if_neg hk] at h
      exact List.mem_cons_of_mem _ (ih h)

/-! ## The claims -/

/-- C9: a four-field line with a non-integer kill count is not processed
atomically: `process_log_line` reports failure, but the stats map has been
mutated — the `(key, match)` entry now exists, zero-initialized when it
was absent (player: count `0`; operator: kills `0`, matches `0`) — and the
player key is visible among the report lines. -/
theorem claim_C9 (pst : PState) (ost : OState) (line : String)
    (p m o nb : String)
    (hv : lineView line = some (p, m, o, nb)) (hk : pyInt? nb = none) :
    player_process_log_line pst line = (playerFoldFail pst p m, false) ∧
    lookup2 (playerFoldFail pst p m) p m = some ((lookup2 pst p m).getD 0) ∧
    operator_process_log_line ost line = (opFoldFail ost o m, false) ∧
    lookupO (opFoldFail ost o m) o m = some ((lookupO ost o m).getD (0, 0)) ∧
    ∀ n, ∃ inner, lookupA (playerFoldFail pst p m) p = some inner ∧
      player_line p inner n ∈
        (playerFoldFail pst p m).map fun pr => player_line pr.1 pr.2 n := by
  refine ⟨player_step_badInt pst line p m o nb hv hk, ?_,
    operator_step_badInt ost line p m o nb hv hk, ?_, ?_⟩
  · rw [lookup2_playerFoldFail, if_pos ⟨rfl, rfl⟩]
  · rw [lookupO_opFoldFail, if_pos ⟨rfl, rfl⟩]
  · intro n
    have h2 : lookup2 (playerFoldFail pst p m) p m = some ((lookup2 pst p m).getD 0) := by
      rw [lookup2_playerFoldFail, if_pos ⟨rfl, rfl⟩]
    rw [lookup2] at h2
    cases ha : lookupA (playerFoldFail pst p m) p with
    | none => rw [ha] at h2; cases h2
    | some inner =>
      refine ⟨inner, rfl, ?_⟩
      exact List.mem_map_of_mem (fun pr => player_line pr.1 pr.2 n) (lookupA_mem ha)

/-- C9 witness: the concrete bad line `"x,y,z,q"` on empty states. -/
theorem claim_C9_witness :
    (lineView "x,y,z,q" = some ("x", "y", "z", "q") ∧ pyInt? "q" = none) ∧
    player_process_log_line [] "x,y,z,q" = (playerFoldFail [] "x" "y", false) ∧
    lookup2 (playerFoldFail [] "x" "y") "x" "y" = some ((lookup2 [] "x" "y").getD 0) ∧
    operator_process_log_line [] "x,y,z,q" = (opFoldFail [] "z" "y", false) ∧
    lookupO (opFoldFail [] "z" "y") "z" "y" = some ((lookupO [] "z" "y").getD (0, 0)) ∧
    ∀ n, ∃ inner, lookupA (playerFoldFail [] "x" "y") "x" = some inner ∧
      player_line "x" inner n ∈
        (playerFoldFail [] "x" "y").map fun pr => player_line pr.1 pr.2 n :=
  ⟨⟨by decide, by decide⟩,
   claim_C9 [] [] "x,y,z,q" "x" "y" "z" "q" (by decide) (by decide)⟩

/-- C10: in any operator state reached from empty by successful folds,
every stored entry has `matches ≥ 1`, so the `kills / matches` divisions
performed by `generate_report` (in the sort key and in the formatting)
never divide by zero. -/
theorem claim_C10 (recs : List LogRecord) (n : Nat) :
    (∀ o m kc, lookupO (foldRecsO recs) o m = some kc → 1 ≤ kc.2) ∧
    (∀ pr ∈ foldRecsO recs, ∀ e ∈ opRank pr.2 n,
      ((e.2.2 : ℚ) ≠ 0 ∧ ratio e.2 = (e.2.1 : ℚ) / (e.2.2 : ℚ))) := by
  constructor
  · intro o m kc h
    rw [lookupO] at h
    cases ho : lookupA (foldRecsO recs) o with
    | none => rw [ho] at h; cases h
    | some inner =>
      rw [ho] at h
      simp only [Option.some_bind] at h
      exact OInv_foldRecsO recs _ (lookupA_mem ho) _ (lookupA_mem h)
  · intro pr hpr e he
    have hge := OInv_foldRecsO recs pr hpr e (mem_of_mem_opRank he)
    exact ⟨Nat.cast_ne_zero.mpr (by omega), ratio_eq_div e.2⟩

/-- C10 witness: one successful fold, entry `(2, 1)`. -/
theorem claim_C10_witness :
    lookupO (foldRecsO [⟨"p", "m", "o", 2⟩]) "o" "m" = some (2, 1) ∧
    1 ≤ (((2 : Int), (1 : Nat)) : Int × Nat).2 :=
  ⟨by decide, (claim_C10 [⟨"p", "m", "o", 2⟩] 1).1 "o" "m" (2, 1) (by decide)⟩

/-- C8: folding a record with non-negative kills never decreases a stored
per-`(player, match)` count, and a pair absent from the map after folding
a sequence of records means no record mentioned it (zero kills observed). -/
theorem claim_C8 :
    (∀ (st : PState) (r : LogRecord), 0 ≤ r.kills → ∀ p m v,
      lookup2 st p m = some v →
      ∃ v', lookup2 (pStep st r) p m = some v' ∧ v ≤ v') ∧
    (∀ (recs : List LogRecord) (p m : String),
      lookup2 (foldRecsP recs) p m = none →
      recs.countP (pMatch p m) = 0 ∧ sumKillsP recs p m = 0) := by
  constructor
  · intro st r hk p m v hv
    rw [pStep, lookup2_playerFold]
    by_cases h : r.player_id = p ∧ r.match_id = m
    · rw [if_pos h, hv]
      exact ⟨v + r.kills, by simp, by omega⟩
    · rw [if_neg h]
      exact ⟨v, hv, le_refl v⟩
  · intro recs p m h
    rw [foldRecsP, lookup2_foldl] at h
    by_cases hc : recs.countP (pMatch p m) = 0
    · refine ⟨hc, ?_⟩
      have hfil : recs.filter (pMatch p m) = [] :=
        List.filter_eq_nil_iff.mpr (List.countP_eq_zero.mp hc)
      simp [sumKillsP, hfil]
    · rw [if_neg hc] at h
      cases h

/-- C8 witness: a stored count of `1` grows to `3` under a fold of `2`. -/
theorem claim_C8_witness :
    lookup2 [("a", [("b", 1)])] "a" "b" = some 1 ∧
    (0 : Int) ≤ 2 ∧
    ∃ v', lookup2 (pStep [("a", [("b", 1)])] ⟨"a", "b", "c", 2⟩) "a" "b" = some v' ∧
      (1 : Int) ≤ v' :=
  ⟨by decide, by decide,
   claim_C8.1 [("a", [("b", 1)])] ⟨"a", "b", "c", 2⟩ (by decide) "a" "b" 1 (by decide)⟩

/-- C6: folding two orderings of the same multiset of records yields the
same stats-map contents, for both aggregators. -/
theorem claim_C6 (l₁ l₂ : List LogRecord) (h : l₁.Perm l₂) :
    (∀ p m, lookup2 (foldRecsP l₁) p m = lookup2 (foldRecsP l₂) p m) ∧
    (∀ o m, lookupO (foldRecsO l₁) o m = lookupO (foldRecsO l₂) o m) := by
  constructor
  · intro p m
    rw [foldRecsP, foldRecsP, lookup2_foldl, lookup2_foldl]
    rw [h.countP_eq (pMatch p m),
      show sumKillsP l₁ p m = sumKillsP l₂ p m from
        List.Perm.sum_eq (List.Perm.map LogRecord.kills (h.filter (pMatch p m)))]
  · intro o m
    rw [foldRecsO, foldRecsO, lookupO_foldl, lookupO_foldl]
    rw [h.countP_eq (oMatch o m),
      show sumKillsO l₁ o m = sumKillsO l₂ o m from
        List.Perm.sum_eq (List.Perm.map LogRecord.kills (h.filter (oMatch o m)))]

/-- C6 witness: two records in both orders. -/
theorem claim_C6_witness :
    lookup2 (foldRecsP [⟨"a", "b", "c", 2⟩, ⟨"a", "b", "d", 3⟩]) "a" "b" = some 5 ∧
    lookup2 (foldRecsP [⟨"a", "b", "c", 2⟩, ⟨"a", "b", "d", 3⟩]) "a" "b" =
      lookup2 (foldRecsP [⟨"a", "b", "d", 3⟩, ⟨"a", "b", "c", 2⟩]) "a" "b" :=
  ⟨by decide,
   (claim_C6 [⟨"a", "b", "c", 2⟩, ⟨"a", "b", "d", 3⟩]
     [⟨"a", "b", "d", 3⟩, ⟨"a", "b", "c", 2⟩] (List.Perm.swap _ _ _)).1 "a" "b"⟩

/-- C7 counterexample: the aggregator is not a two-state object.  After the
report has been generated from the state, a further `process_log_line`
call is not rejected: it succeeds and mutates the stats map. -/
theorem claim_C7_counterexample :
    player_generate_report [("a", [("b", 1)])] 3 = "a|b:1\n" ∧
    (player_process_log_line [("a", [("b", 1)])] "x,y,z,7").2 = true ∧
    (player_process_log_line [("a", [("b", 1)])] "x,y,z,7").1 ≠ [("a", [("b", 1)])] := by
  decide

/-- C7 amended: `generate_report` reads the stats map without changing it
and sets no finalization flag; a well-formed fold after report generation
is accepted and updates the map per the usual fold semantics (no
`InvalidStateError` exists in the code). -/
theorem claim_C7 (st : PState) (line : String) (p m o : String) (k : Int)
    (h : parseLine? line = some (p, m, o, k)) :
    (player_process_log_line st line).2 = true ∧
    lookup2 (player_process_log_line st line).1 p m =
      some ((lookup2 st p m).getD 0 + k) := by
  rw [player_step_wf st line p m o k h]
  exact ⟨rfl, by rw [lookup2_playerFold, if_pos ⟨rfl, rfl⟩]⟩

/-- C7 witness: fold after report generation on a concrete state. -/
theorem claim_C7_witness :
    parseLine? "x,y,z,7" = some ("x", "y", "z", 7) ∧
    ((player_process_log_line [("a", [("b", 1)])] "x,y,z,7").2 = true ∧
     lookup2 (player_process_log_line [("a", [("b", 1)])] "x,y,z,7").1 "x" "y" =
       some ((lookup2 [("a", [("b", 1)])] "x" "y").getD 0 + 7)) :=
  ⟨by decide, claim_C7 [("a", [("b", 1)])] "x,y,z,7" "x" "y" "z" 7 (by decide)⟩

/-- C2 counterexample: a line whose kill-count field is a negative integer
is accepted by the parser, contrary to the claim that it is rejected. -/
theorem claim_C2_counterexample :
    splitFields "a,b,c,-3" = ["a", "b", "c", "-3"] ∧
    pyInt? "-3" = some (-3) ∧ (-3 : Int) < 0 ∧
    parseLine? "a,b,c,-3" = some ("a", "b", "c", -3) := by
  decide

/-- C2 amended: parsing fails if and only if the stripped line does not
split on comma into exactly four fields, or the kill-count field is not a
valid Python integer literal (optional sign — negative values accepted —
digits with isolated underscores). -/
theorem claim_C2 (line : String) :
    parseLine? line = none ↔
      ¬∃ p m o nb, splitFields line = [p, m, o, nb] ∧ PyIntString nb :=
  parseLine_eq_none_iff line

/-- C2 witness: a two-field line fails to parse. -/
theorem claim_C2_witness :
    parseLine? "a,b" = none ∧ splitFields "a,b" = ["a", "b"] :=
  ⟨(claim_C2 "a,b").mpr (by
      rintro ⟨p, m, o, nb, hs, _⟩
      rw [show splitFields "a,b" = ["a", "b"] from by decide] at hs
      cases hs),
   by decide⟩

/-- C3: for every operator state and `top_n ≥ 1`, the per-operator report
entries are up to `top_n` of that operator's matches, ordered by
descending kills/matches ratio (real-number division) with ties broken by
ascending match id; each ratio is formatted with exactly two decimal
places; and on the five-record concrete scenario with `top_n = 2`,
operator1's entries are `match1:4.00` then `match2:4.00`. -/
theorem claim_C3 :
    (∀ (inner : List (String × (Int × Nat))) (n : Nat), 1 ≤ n →
      List.Pairwise oKey (opRank inner n) ∧
      (opRank inner n).length ≤ n ∧
      (opRank inner n ++ (List.insertionSort oKey inner).drop n).Perm inner) ∧
    (∀ kc : Int × Nat, ratio kc = (kc.1 : ℚ) / (kc.2 : ℚ)) ∧
    (∀ e : String × (Int × Nat), ∃ pre c1 c2,
      fmt2 (ratio e.2) = pre ++ "." ++ String.mk [c1, c2] ∧
      c1.isDigit = true ∧ c2.isDigit = true) ∧
    (∀ (o : String) (inner : List (String × (Int × Nat))) (n : Nat),
      operator_line o inner n =
        o ++ "|" ++ joinSep ","
          ((opRank inner n).map fun e => e.1 ++ ":" ++ fmt2 (ratio e.2))) ∧
    operator_generate_report (foldLinesO [] demoLines) 2 =
      "operator1|match1:4.00,match2:4.00\noperator2|match2:2.00,match3:1.00" := by
  refine ⟨?_, ratio_eq_div, fun e => fmt2_twoDecimals _, fun _ _ _ => rfl, by decide⟩
  intro inner n _
  refine ⟨?_, ?_, ?_⟩
  · exact List.Pairwise.sublist (List.take_sublist n _)
      (List.sorted_insertionSort oKey inner)
  · rw [opRank]
    exact List.length_take_le n _
  · rw [opRank, List.take_append_drop]
    exact List.perm_insertionSort oKey inner

/-- C3 witness: the tied operator1 entries, `match1` before `match2`. -/
theorem claim_C3_witness :
    (1 : Nat) ≤ 2 ∧
    (opRank [("match2", ((4 : Int), (1 : Nat))), ("match1", (8, 2))] 2).length ≤ 2 ∧
    opRank [("match2", ((4 : Int), (1 : Nat))), ("match1", (8, 2))] 2 =
      [("match1", (8, 2)), ("match2", (4, 1))] :=
  ⟨by decide, (claim_C3.1 [("match2", (4, 1)), ("match1", (8, 2))] 2 (by decide)).2.1,
   by decide⟩

/-- C4: for every player state and `top_n ≥ 1`, the per-player report
entries are at most `top_n` matches ordered by descending kill count with
ties broken by ascending (lexicographic) match id; a player with fewer
than `top_n` matches gets all of them, no padding. -/
theorem claim_C4 :
    (∀ (inner : List (String × Int)) (n : Nat), 1 ≤ n →
      List.Pairwise pKey (playerRank inner n) ∧
      (playerRank inner n).length = min n inner.length ∧
      (inner.length ≤ n → (playerRank inner n).Perm inner)) ∧
    player_generate_report (foldLinesP [] demoLines) 3 =
      "player1|match1:5,match2:2,match3:1\nplayer2|match2:4,match1:3\n" := by
  refine ⟨?_, by decide⟩
  intro inner n _
  refine ⟨List.Pairwise.sublist (List.take_sublist n _)
    (List.sorted_insertionSort pKey inner), ?_, ?_⟩
  · rw [playerRank, List.length_take, List.length_insertionSort]
  · intro hle
    rw [playerRank,
      List.take_of_length_le (by rw [List.length_insertionSort]; exact hle)]
    exact List.perm_insertionSort pKey inner

/-- C4 witness: a player with one match and `top_n = 2` keeps that match. -/
theorem claim_C4_witness :
    (1 : Nat) ≤ 2 ∧ playerRank [("m", (3 : Int))] 2 = [("m", 3)] ∧
    (playerRank [("m", (3 : Int))] 2).Perm [("m", (3 : Int))] :=
  ⟨by decide, by decide, (claim_C4.1 [("m", 3)] 2 (by decide)).2.2 (by decide)⟩

/-- C5: for nonempty states, the serialized player report is its lines
joined by single newlines plus exactly one trailing newline, while the
serialized operator report is its lines joined by single newlines with no
trailing newline. -/
theorem claim_C5 (pst : PState) (ost : OState) (n₁ n₂ : Nat)
    (hp : pst ≠ []) (ho : ost ≠ []) :
    player_generate_report pst n₁ =
      joinSep "\n" (pst.map fun pr => player_line pr.1 pr.2 n₁) ++ "\n" ∧
    trailingNL (player_generate_report pst n₁) = 1 ∧
    operator_generate_report ost n₂ =
      joinSep "\n" (ost.map fun pr => operator_line pr.1 pr.2 n₂) ∧
    trailingNL (operator_generate_report ost n₂) = 0 := by
  have hpl : lastCharSafe (joinSep "\n" (pst.map fun pr => player_line pr.1 pr.2 n₁)) := by
    apply joinSep_lastChar
    · intro hmap
      exact hp (List.map_eq_nil_iff.mp hmap)
    · intro x hx
      rw [List.mem_map] at hx
      obtain ⟨pr, _, hpr⟩ := hx
      rw [← hpr]
      exact player_line_lastChar pr.1 pr.2 n₁
  have hol : lastCharSafe (joinSep "\n" (ost.map fun pr => operator_line pr.1 pr.2 n₂)) := by
    apply joinSep_lastChar
    · intro hmap
      exact ho (List.map_eq_nil_iff.mp hmap)
    · intro x hx
      rw [List.mem_map] at hx
      obtain ⟨pr, _, hpr⟩ := hx
      rw [← hpr]
      exact operator_line_lastChar pr.1 pr.2 n₂
  refine ⟨rfl, ?_, rfl, ?_⟩
  · exact trailingNL_append_newline hpl
  · exact trailingNL_eq_zero hol

/-- C5 witness: one-key states for both reports. -/
theorem claim_C5_witness :
    ([("a", [("b", 1)])] : PState) ≠ [] ∧
    trailingNL (player_generate_report [("a", [("b", 1)])] 3) = 1 ∧
    trailingNL (operator_generate_report [("a", [("b", (1, 1))])] 2) = 0 :=
  ⟨by decide,
   (claim_C5 [("a", [("b", 1)])] [("a", [("b", (1, 1))])] 3 2
     (by decide) (by decide)).2.1,
   (claim_C5 [("a", [("b", 1)])] [("a", [("b", (1, 1))])] 3 2
     (by decide) (by decide)).2.2.2⟩

/-- C1 counterexample: a batch with one malformed (four-field,
non-numeric kill count) line reports exactly one error with the right
file and 0-based index and keeps processing, but the resulting player
report is NOT the report of the well-formed lines alone: the spurious
zero-initialized entry `x|y:0` appears. -/
theorem claim_C1_counterexample :
    (process_logs_player [("f", ["a,b,c,1", "x,y,z,q"])]).2 = [("f", 1)] ∧
    parseLine? "x,y,z,q" = none ∧
    (parseLine? "a,b,c,1").isSome = true ∧
    player_generate_report (process_logs_player [("f", ["a,b,c,1", "x,y,z,q"])]).1 3 =
      "a|b:1\nx|y:0\n" ∧
    player_generate_report (process_logs_player [("f", ["a,b,c,1"])]).1 3 = "a|b:1\n" ∧
    player_generate_report (process_logs_player [("f", ["a,b,c,1", "x,y,z,q"])]).1 3 ≠
      player_generate_report (process_logs_player [("f", ["a,b,c,1"])]).1 3 := by
  decide

/-- C1 amended: with exactly one malformed line in the batch, the
orchestration continues past it and reports exactly one error event with
the file and the line's 0-based index; when the malformed line's field
count is not four, the final state — and hence the report — is the one
produced by the well-formed lines alone.  (A four-field line with a
non-numeric kill count additionally leaves a zero-initialized entry, see
the counterexample and C9.) -/
theorem claim_C1 (f : String) (n : Nat) (pre post : List String) (bad : String)
    (hwf : ∀ l ∈ pre ++ post, (parseLine? l).isSome = true)
    (hbad : parseLine? bad = none) :
    (process_logs_player [(f, pre ++ [bad] ++ post)]).2 = [(f, pre.length)] ∧
    ((splitFields bad).length ≠ 4 →
      (process_logs_player [(f, pre ++ [bad] ++ post)]).1 =
        (process_logs_player [(f, pre ++ post)]).1 ∧
      player_generate_report (process_logs_player [(f, pre ++ [bad] ++ post)]).1 n =
        player_generate_report (process_logs_player [(f, pre ++ post)]).1 n) := by
  have hwf1 : ∀ l ∈ pre, (parseLine? l).isSome = true :=
    fun l hl => hwf l (List.mem_append_left _ hl)
  have hwf2 : ∀ l ∈ post, (parseLine? l).isSome = true :=
    fun l hl => hwf l (List.mem_append_right _ hl)
  have herr : (processLinesP f [] (pre ++ [bad] ++ post) 0).2 = [(f, pre.length)] := by
    rw [List.append_assoc, processLinesP_append, processLinesP_wf f [] pre 0 hwf1,
      processLinesP_append, processLinesP_bad_single f _ bad _ hbad,
      processLinesP_wf _ _ post _ hwf2]
    simp
  constructor
  · rw [process_logs_player_eq]
    show processFilesErrorsP [] [(f, pre ++ [bad] ++ post)] = [(f, pre.length)]
    simp only [processFilesErrorsP, List.append_nil]
    exact herr
  · intro hfield
    have hnoop : ∀ st : PState, player_process_log_line st bad = (st, false) :=
      fun st => player_step_noView st bad ((lineView_eq_none_iff bad).mpr hfield)
    have hbadnoop : foldLinesP (foldLinesP ([] : PState) pre) [bad] =
        foldLinesP [] pre := by
      rw [show [bad] = bad :: [] from rfl, foldLinesP_cons, hnoop]
      rfl
    have hstate : foldLinesP ([] : PState) (pre ++ [bad] ++ post) =
        foldLinesP [] (pre ++ post) := by
      rw [foldLinesP_append, foldLinesP_append, hbadnoop, ← foldLinesP_append]
    have h1 : (process_logs_player [(f, pre ++ [bad] ++ post)]).1 =
        (process_logs_player [(f, pre ++ post)]).1 := by
      rw [process_logs_player_eq, process_logs_player_eq]
      show processFilesStateP [] [(f, pre ++ [bad] ++ post)] =
        processFilesStateP [] [(f, pre ++ post)]
      simp only [processFilesStateP, List.foldl_cons, List.foldl_nil]
      exact hstate
    exact ⟨h1, by rw [h1]⟩

/-- C1 witness: one well-formed line, then a two-field malformed line. -/
theorem claim_C1_witness :
    (∀ l ∈ ["a,b,c,1"] ++ ([] : List String), (parseLine? l).isSome = true) ∧
    parseLine? "x,y" = none ∧
    (process_logs_player [("f", ["a,b,c,1"] ++ ["x,y"] ++ [])]).2 = [("f", 1)] ∧
    player_generate_report
        (process_logs_player [("f", ["a,b,c,1"] ++ ["x,y"] ++ [])]).1 3 =
      player_generate_report (process_logs_player [("f", ["a,b,c,1"] ++ [])]).1 3 :=
  ⟨by decide, by decide,
   (claim_C1 "f" 3 ["a,b,c,1"] [] "x,y" (by decide) (by decide)).1,
   ((claim_C1 "f" 3 ["a,b,c,1"] [] "x,y" (by decide) (by decide)).2 (by decide)).2⟩

end R6
